import Mathlib

/-!
Verification of the snapshot reconciliation and analytics core of the
stfc-stat-tracker repository (send_discord_notification.py,
send_hourly_alerts.py, db.py).

The Python code is shallowly embedded: numeric values that the source
handles as CPython floats are modelled as exact rationals (ℚ); a Python
function that can raise an uncaught exception is modelled as returning
`Option` with `none` for the raising run.  Modelling notes:

* `str.strip` / the regex class `\s` are modelled over the ASCII
  whitespace characters (the repository only ever feeds ASCII data).
* CPython's `float(...)` accepts underscores between digits and the
  words inf/nan; those inputs never occur here and are not modelled
  (they parse to `none`, i.e. a raise).
* Rendering with `f"{x:.2f}"` rounds the binary double nearest to `x`;
  it is modelled as exact decimal rounding of the rational value
  (round-half-up).  The two can differ only in the last printed decimal
  for values within one double ulp of a tie, which is far inside the
  1-percent tolerance of every property proved below.
-/

namespace Stfc

/-- ASCII whitespace, the characters stripped by `str.strip()` and
matched by the regex class. -/
def isPySpace (c : Char) : Bool :=
  c = ' ' || c = '\t' || c = '\n' || c = '\r' || c = '\x0b' || c = '\x0c'

/-- Characters allowed by the regex character class of digits and dots. -/
def isDigitDot (c : Char) : Bool := c.isDigit || c = '.'

/-- Membership of the magnitude-suffix set, case-insensitively
(the regex group is compiled with IGNORECASE and db.py upper-cases). -/
def isSuffix (c : Char) : Bool :=
  let u := c.toUpper
  u = 'K' || u = 'M' || u = 'B' || u = 'T' || u = 'Q'

/-- Multiplier table of `parse_abbr`. -/
def multOf (c : Char) : ℚ :=
  let u := c.toUpper
  if u = 'K' then 1000
  else if u = 'M' then 1000000
  else if u = 'B' then 1000000000
  else if u = 'T' then 1000000000000
  else if u = 'Q' then 1000000000000000
  else 1

/-- Model of `str.strip()`: drop ASCII whitespace from both ends. -/
def stripEnds (l : List Char) : List Char :=
  ((l.dropWhile isPySpace).reverse.dropWhile isPySpace).reverse

/-- Model of `.replace(",", "")`. -/
def removeCommas (l : List Char) : List Char := l.filter (fun c => c ≠ ',')

/-- Value of a most-significant-first digit string. -/
def digitsToNat (l : List Char) : ℕ :=
  l.foldl (fun a c => 10 * a + (c.toNat - 48)) 0

/-- Decimal rendering of a natural number (Python `str(n)` for `n ≥ 0`). -/
def natRepr (n : ℕ) : List Char :=
  if n = 0 then ['0'] else ((Nat.digits 10 n).reverse.map Nat.digitChar)

/-- Decimal rendering of an integer (Python `str(n)`). -/
def intRepr (z : ℤ) : List Char :=
  if z < 0 then '-' :: natRepr z.natAbs else natRepr z.toNat

/-- Consume an optional leading sign; the flag is true for a minus. -/
def signSplit (t : List Char) : Bool × List Char :=
  match t with
  | c :: r => if c = '+' then (false, r) else if c = '-' then (true, r) else (false, t)
  | [] => (false, t)

/-- Consume an optional dot followed by the fractional digit run,
returning (fraction digits, remainder). -/
def dotSplit (r1 : List Char) : List Char × List Char :=
  match r1 with
  | c :: r => if c = '.' then (r.takeWhile Char.isDigit, r.dropWhile Char.isDigit) else ([], r1)
  | [] => ([], r1)

/-- Model of CPython `float(s)` restricted to finite decimal literals:
optional surrounding whitespace, an optional sign, a mantissa of digits
with at most one dot (at least one digit), and an optional exponent.
`none` models a ValueError. -/
def pyFloat (l : List Char) : Option ℚ :=
  let sp := signSplit (stripEnds l)
  let sgn : ℚ := if sp.1 then -1 else 1
  let ip := sp.2.takeWhile Char.isDigit
  let fq := dotSplit (sp.2.dropWhile Char.isDigit)
  let fp := fq.1
  let r2 := fq.2
  if ip = [] && fp = [] then none
  else
    let mant : ℚ := (digitsToNat ip : ℚ) + (digitsToNat fp : ℚ) / (10 : ℚ) ^ fp.length
    match r2 with
    | [] => some (sgn * mant)
    | e :: r3 =>
      if e = 'e' ∨ e = 'E' then
        let esp := signSplit r3
        let ed := esp.2.takeWhile Char.isDigit
        if ed = [] ∨ esp.2.dropWhile Char.isDigit ≠ [] then none
        else some (sgn * mant * (10 : ℚ) ^ ((if esp.1 then (-1 : ℤ) else 1) * (digitsToNat ed : ℤ)))
      else none

/-- Model of CPython `int(s)` on strings: optional surrounding
whitespace, optional sign, then a nonempty run of digits.  `none`
models a ValueError. -/
def pyInt (l : List Char) : Option ℤ :=
  let sp := signSplit (stripEnds l)
  let d := sp.2.takeWhile Char.isDigit
  if d = [] ∨ sp.2.dropWhile Char.isDigit ≠ [] then none
  else some ((if sp.1 then (-1 : ℤ) else 1) * digitsToNat d)

/-- Truncation toward zero, the behaviour of Python `int(float)`. -/
def ratTrunc (q : ℚ) : ℤ := if 0 ≤ q then ⌊q⌋ else ⌈q⌉

/-- Model of the anchored match of the pattern of one nonempty group
of digits and dots, optional whitespace, and an optional one-letter
magnitude suffix; returns the two captured groups.  The three
character classes are pairwise disjoint, so the greedy decomposition
below is the only possible match. -/
def regexAbbr (l : List Char) : Option (List Char × List Char) :=
  let num := l.takeWhile isDigitDot
  let r2 := (l.dropWhile isDigitDot).dropWhile isPySpace
  if num = [] then none
  else
    match r2 with
    | [] => some (num, [])
    | [c] => if isSuffix c then some (num, [c]) else none
    | _ => none

/-- Multiplier of an optional captured suffix group
(`multipliers.get(suffix, 1)`). -/
def multOfGroup (g : List Char) : ℚ :=
  match g with
  | [] => 1
  | c :: _ => multOf c

/-- Embedding of `parse_abbr` from send_discord_notification.py.
`some q` is a normal return of the float `q`; `none` models the
uncaught ValueError that `float(...)` raises when the captured numeric
group is not a valid float (for example more than one dot). -/
def parse_abbr (s : String) : Option ℚ :=
  if s.data = [] then some 0
  else
    let s1 := removeCommas (stripEnds s.data)
    match regexAbbr s1 with
    | none => some 0
    | some g =>
      match pyFloat g.1 with
      | none => none
      | some q => some (q * multOfGroup g.2)

/-- Embedding of `_parse_abbr` from db.py.  `some z` is a normal
return; `none` models the uncaught IndexError when the cleaned string
is empty while the original was nonempty (whitespace-only input). -/
def db_parse_abbr (s : String) : Option ℤ :=
  if s.data = [] then some 0
  else
    let s1 := removeCommas (stripEnds s.data)
    match s1.getLast? with
    | none => none
    | some c =>
      if isSuffix c then
        match pyFloat s1.dropLast with
        | none => some 0
        | some q => some (ratTrunc (q * multOf c))
      else
        match pyFloat s1 with
        | none => some 0
        | some q => some (ratTrunc q)

/-- Rendering of a nonnegative count of hundredths as a fixed
two-decimal numeral. -/
def fmt2N (h : ℕ) : List Char :=
  natRepr (h / 100) ++ ['.', Nat.digitChar (h % 100 / 10), Nat.digitChar (h % 100 % 10)]

/-- Two-decimal fixed rendering of a nonnegative rational, the model of
the format specifier used by `format_abbr` (see the fidelity note in
the file header about ties). -/
def fmt2 (x : ℚ) : List Char := fmt2N (round (100 * x)).toNat

/-- Model of `.rstrip("0")`. -/
def rstripZeros (l : List Char) : List Char :=
  (l.reverse.dropWhile (fun c => c = '0')).reverse

/-- Model of `.rstrip(".")`. -/
def rstripDot (l : List Char) : List Char :=
  (l.reverse.dropWhile (fun c => c = '.')).reverse

/-- The trailing-zero stripping applied by `format_abbr` after the
two-decimal rendering. -/
def stripZeroDot (l : List Char) : List Char := rstripDot (rstripZeros l)

/-- Embedding of `format_abbr` from send_discord_notification.py,
restricted to the integral inputs that the verified claims use. -/
def format_abbr (n : ℤ) : String :=
  if n = 0 then ⟨['0']⟩
  else
    let a : ℚ := |(n : ℚ)|
    let sign : List Char := if n < 0 then ['-'] else []
    if 1000000000000000 ≤ a then ⟨sign ++ stripZeroDot (fmt2 (a / 1000000000000000)) ++ ['Q']⟩
    else if 1000000000000 ≤ a then ⟨sign ++ stripZeroDot (fmt2 (a / 1000000000000)) ++ ['T']⟩
    else if 1000000000 ≤ a then ⟨sign ++ stripZeroDot (fmt2 (a / 1000000000)) ++ ['B']⟩
    else if 1000000 ≤ a then ⟨sign ++ stripZeroDot (fmt2 (a / 1000000)) ++ ['M']⟩
    else if 1000 ≤ a then ⟨sign ++ stripZeroDot (fmt2 (a / 1000)) ++ ['K']⟩
    else ⟨sign ++ stripZeroDot (fmt2 a)⟩

/-- Lexicographic strict order on character lists, the order Python
uses to compare strings (by code point). -/
def lexLt : List Char → List Char → Bool
  | [], [] => false
  | [], _ :: _ => true
  | _ :: _, [] => false
  | a :: as, b :: bs => if a < b then true else if b < a then false else lexLt as bs

/-- The matching non-strict order. -/
def lexLe (a b : List Char) : Bool := !lexLt b a

/-- String comparison as `sorted` uses it. -/
def keyLe (a b : String) : Prop := lexLe a.data b.data = true

/-- Strict string comparison, for stating strict ascending order. -/
def keyLt (a b : String) : Prop := lexLt a.data b.data = true

instance : DecidableRel keyLe := fun a b => instDecidableEqBool (lexLe a.data b.data) true

instance : DecidableRel keyLt := fun a b => instDecidableEqBool (lexLt a.data b.data) true

/-- Model of `sorted` on a list of distinct strings. -/
def sortKeys (l : List String) : List String := l.insertionSort keyLe

/-- A member record of the hourly-alert snapshot maps.  Fields are
optional to model dictionary keys that may be absent; `detect_changes`
reads them with `.get` defaults. -/
structure Member where
  name : Option String
  level : Option String
  power : Option String
deriving DecidableEq

/-- A snapshot member map: association list from player-id key to
record (a Python dict; keys are unique in actual data, and every
theorem below also holds for lists with repeated keys, where lookup
takes the first binding like a dict built left to right keeps one). -/
abbrev MemberMap := List (String × Member)

/-- Dictionary lookup. -/
def alookup {α : Type} (l : List (String × α)) (k : String) : Option α :=
  match l with
  | [] => none
  | (k1, v) :: t => if k1 = k then some v else alookup t k

/-- The key set of a map, as the deduplicated key list. -/
def idsOf (m : MemberMap) : List String := (m.map Prod.fst).dedup

/-- The record `detect_changes` builds for a joined or left member. -/
structure EventRec where
  name : String
  level : String
  power : String
deriving DecidableEq

/-- The record `detect_changes` builds for a level-up. -/
structure LevelUpRec where
  name : String
  old_level : String
  new_level : String
deriving DecidableEq

/-- Result of `detect_changes`. -/
structure ChangeSet where
  joined : List EventRec
  left : List EventRec
  level_ups : List LevelUpRec
deriving DecidableEq

/-- Build the emitted record for key `mid` from map `m`
(`m[mid]` with `.get` defaults for the fields). -/
def mkEventRec (m : MemberMap) (mid : String) : EventRec :=
  match alookup m mid with
  | some r => ⟨r.name.getD mid, r.level.getD "?", r.power.getD "0"⟩
  | none => ⟨mid, "?", "0"⟩

/-- The joined list of `detect_changes`: records for the sorted key
set difference curr minus prev. -/
def joinedOf (prev curr : MemberMap) : List EventRec :=
  (sortKeys ((idsOf curr).filter (fun k => k ∉ idsOf prev))).map (mkEventRec curr)

/-- The left list of `detect_changes`: symmetric difference the other
way, built from the previous snapshot. -/
def leftOf (prev curr : MemberMap) : List EventRec :=
  (sortKeys ((idsOf prev).filter (fun k => k ∉ idsOf curr))).map (mkEventRec prev)

/-- The effective level string of a record:
`.get("level", "0") or "0"`, so a missing or empty level is "0". -/
def effLevel (r : Member) : String :=
  match r.level with
  | none => "0"
  | some s => if s.data = [] then "0" else s

/-- One shared member map entry looked up for the level comparison. -/
def levelAt (m : MemberMap) (mid : String) : Member :=
  (alookup m mid).getD ⟨none, none, none⟩

/-- The level-up loop of `detect_changes` over the sorted shared key
list; `none` models the ValueError `int(...)` raises on a non-numeric
nonempty level string. -/
def levelUpsGo (prev curr : MemberMap) : List String → Option (List LevelUpRec)
  | [] => some []
  | mid :: rest =>
    match pyInt (effLevel (levelAt prev mid)).data, pyInt (effLevel (levelAt curr mid)).data with
    | some pl, some cl =>
      (levelUpsGo prev curr rest).map (fun t =>
        if pl < cl then
          ⟨((levelAt curr mid).name).getD mid, ⟨intRepr pl⟩, ⟨intRepr cl⟩⟩ :: t
        else t)
    | _, _ => none

/-- The level-up list of `detect_changes`. -/
def levelUpsOf (prev curr : MemberMap) : Option (List LevelUpRec) :=
  levelUpsGo prev curr (sortKeys ((idsOf prev).filter (fun k => k ∈ idsOf curr)))

/-- Embedding of `detect_changes` from send_hourly_alerts.py.  `none`
models the uncaught ValueError from `int(...)` on a malformed level of
a member present in both snapshots. -/
def detect_changes (prev curr : MemberMap) : Option ChangeSet :=
  (levelUpsOf prev curr).map (fun ups => ⟨joinedOf prev curr, leftOf prev curr, ups⟩)

/-- Dedup key of a joined event (`_make_change_key`). -/
def joinedKey (r : EventRec) : String := "joined:" ++ r.name

/-- Dedup key of a left event (`_make_change_key`). -/
def leftKey (r : EventRec) : String := "left:" ++ r.name

/-- Dedup key of a level-up event (`_make_change_key`). -/
def levelupKey (r : LevelUpRec) : String := "levelup:" ++ r.name ++ ":" ++ r.new_level

/-- Embedding of `_filter_unsent`: drop events whose key is already in
the sent set. -/
def filter_unsent (c : ChangeSet) (sent : List String) : ChangeSet :=
  ⟨c.joined.filter (fun r => decide (joinedKey r ∉ sent)),
   c.left.filter (fun r => decide (leftKey r ∉ sent)),
   c.level_ups.filter (fun r => decide (levelupKey r ∉ sent))⟩

/-- All keys of a change set, as recorded by the sending loop of
`main` after a post attempt. -/
def keysOf (c : ChangeSet) : List String :=
  c.joined.map joinedKey ++ c.left.map leftKey ++ c.level_ups.map levelupKey

/-- The persisted dedup ledger (the .sent_hourly_alerts file). -/
structure Ledger where
  dates : Option String
  sent : List String

/-- One dedup cycle of `main` in send_hourly_alerts.py: reset the sent
set when the date pair changed, filter already-sent events, then
record every attempted event key. -/
def dedupCycle (datesKey : String) (c : ChangeSet) (st : Ledger) : ChangeSet × Ledger :=
  let sent := if st.dates = some datesKey then st.sent else []
  let filtered := filter_unsent c sent
  (filtered, ⟨some datesKey, sent ++ keysOf filtered⟩)

/-- The sanity guard of `main` in send_hourly_alerts.py (the two
member-count checks before `detect_changes`).  `some c` means the
process exits with status `c` before any reconciliation or
notification; `none` means the pipeline continues. -/
def hourlyGuardExit (prevCount currCount : ℕ) : Option ℕ :=
  if currCount < 10 then some 0
  else if prevCount < 10 then some 0
  else none

/-- The sanity guard of `main` in send_discord_notification.py (the
member-count check before building and posting the embed).  `some c`
means the process exits with status `c` before reconciliation or
notification; `none` means the pipeline continues. -/
def dailyGuardExit (memberCount : ℕ) : Option ℕ :=
  if memberCount < 10 then some 0 else none

/-- A per-member stat record of a history.json snapshot, as consumed
by `find_inactive` and `find_power_movers`; the nine tracked numeric
fields, each possibly absent (read with `.get(f, "0")`). -/
structure SMember where
  level : Option String
  power : Option String
  helps : Option String
  rss_contrib : Option String
  iso_contrib : Option String
  players_killed : Option String
  hostiles_killed : Option String
  resources_mined : Option String
  resources_raided : Option String
deriving DecidableEq

/-- The tracked numeric fields of a record, in NUMERIC_FIELDS order. -/
def numericFieldsOf (m : SMember) : List (Option String) :=
  [m.level, m.power, m.helps, m.rss_contrib, m.iso_contrib,
   m.players_killed, m.hostiles_killed, m.resources_mined, m.resources_raided]

/-- One history.json entry: a date and a member map keyed by id. -/
structure SdnSnap where
  date : String
  members : List (String × SMember)
deriving DecidableEq

/-- A current member of latest.json as the analytics read it:
`id` may be absent (`.get("id")`), `name` is indexed directly,
`power` is read with a "0" default. -/
structure CMember where
  id : Option String
  name : String
  power : Option String
deriving DecidableEq

/-- Embedding of `get_snapshot_days_ago`: `target` stands for the
string `(now - N days)` formatted as a date, computed from the ambient
clock in the source.  The fold keeps the last entry dated at or before
the target; when none qualifies the first history entry is used as
fallback. -/
def get_snapshot_days_ago (history : List SdnSnap) (target : String) : Option SdnSnap :=
  match history with
  | [] => none
  | h0 :: _ =>
    let best := history.foldl
      (fun acc e => if keyLe e.date target then some e else acc)
      (none : Option SdnSnap)
    some (best.getD h0)

/-- One entry of the power-mover delta list. -/
structure Mover where
  name : String
  delta : ℚ
deriving DecidableEq

/-- Descending comparison on deltas, as the first sort of
`find_power_movers` orders (stable like Python sort). -/
def moverGe (a b : Mover) : Prop := b.delta ≤ a.delta

/-- Ascending comparison on deltas, for the losers sort. -/
def moverLe (a b : Mover) : Prop := a.delta ≤ b.delta

instance : DecidableRel moverGe := fun a b => inferInstanceAs (Decidable (b.delta ≤ a.delta))

instance : DecidableRel moverLe := fun a b => inferInstanceAs (Decidable (a.delta ≤ b.delta))

/-- The falsiness test applied to `m.get("id")`: absent or empty. -/
def idFalsy (o : Option String) : Bool :=
  match o with
  | none => true
  | some s => s.data = []

/-- The delta-building loop of `find_power_movers`; `none` models a
ValueError raised by `parse_abbr` on a malformed power string. -/
def moverDeltas (anchor : List (String × SMember)) : List CMember → Option (List Mover)
  | [] => some []
  | m :: rest =>
    if idFalsy m.id then moverDeltas anchor rest
    else
      match alookup anchor (m.id.getD "") with
      | none => moverDeltas anchor rest
      | some past =>
        match parse_abbr (m.power.getD "0"), parse_abbr (past.power.getD "0") with
        | some c, some p => (moverDeltas anchor rest).map (fun t => ⟨m.name, c - p⟩ :: t)
        | _, _ => none

/-- Embedding of `find_power_movers`: anchor resolution, guard on a
missing or member-less anchor, deltas, then top-5 gainers (positive,
descending) and top-5 losers (negative, ascending). -/
def find_power_movers (members : List CMember) (history : List SdnSnap)
    (target : String) : Option (List Mover × List Mover) :=
  match get_snapshot_days_ago history target with
  | none => some ([], [])
  | some snap7 =>
    if snap7.members = [] then some ([], [])
    else
      match moverDeltas snap7.members members with
      | none => none
      | some deltas =>
        let sorted := deltas.insertionSort moverGe
        let gainers := (sorted.take 5).filter (fun d => decide (0 < d.delta))
        let losersAll := (sorted.filter (fun d => decide (d.delta < 0))).insertionSort moverLe
        some (gainers, losersAll.take 5)

/-- The per-field change test of `find_inactive` over the two zipped
field lists (curr first, as the source evaluates); `some true` is a
detected change, `none` a parse raise. -/
def changedGo : List (Option String) → List (Option String) → Option Bool
  | c :: cs, p :: ps =>
    match parse_abbr (c.getD "0"), parse_abbr (p.getD "0") with
    | some qc, some qp => if qc = qp then changedGo cs ps else some true
    | _, _ => none
  | _, _ => some false

/-- The backward walk of `find_inactive`: `pairs` lists the adjacent
(previous, current) snapshot pairs most-recent first; counting stops
at the first change or the first absence. -/
def daysWalk (pairs : List (SdnSnap × SdnSnap)) (mid : String) : Option ℕ :=
  match pairs with
  | [] => some 0
  | (pS, cS) :: rest =>
    match alookup cS.members mid, alookup pS.members mid with
    | some cd, some pd =>
      match changedGo (numericFieldsOf cd) (numericFieldsOf pd) with
      | none => none
      | some true => some 0
      | some false => (daysWalk rest mid).map (fun d => d + 1)
    | _, _ => some 0

/-- One reported inactivity entry. -/
structure InactiveRec where
  name : String
  days : ℕ
deriving DecidableEq

/-- Descending day count, the final sort of `find_inactive`. -/
def inactiveGe (a b : InactiveRec) : Prop := b.days ≤ a.days

instance : DecidableRel inactiveGe := fun a b => inferInstanceAs (Decidable (b.days ≤ a.days))

/-- The member loop of `find_inactive`: skip falsy ids, drop zero-day
members, collect the rest in member order. -/
def collectInactive (pairs : List (SdnSnap × SdnSnap)) : List CMember → Option (List InactiveRec)
  | [] => some []
  | m :: rest =>
    if idFalsy m.id then collectInactive pairs rest
    else
      match daysWalk pairs (m.id.getD "") with
      | none => none
      | some 0 => collectInactive pairs rest
      | some d => (collectInactive pairs rest).map (fun t => ⟨m.name, d⟩ :: t)

/-- Embedding of `find_inactive`: keep snapshots with nonempty member
data, require at least 3, drop the most recent, walk the remaining
adjacent pairs backwards per member, sort descending by days and keep
the top 5. -/
def find_inactive (members : List CMember) (history : List SdnSnap) :
    Option (List InactiveRec) :=
  let valid := history.filter (fun h => decide (h.members ≠ []))
  if valid.length < 3 then some []
  else
    let retained := valid.dropLast
    let pairs := (retained.zip retained.tail).reverse
    (collectInactive pairs members).map (fun l => (l.insertionSort inactiveGe).take 5)

/-- Python slice `l[:k]` with a possibly negative bound. -/
def pySliceTo (l : List Char) (k : ℤ) : List Char :=
  if 0 ≤ k then l.take k.toNat else l.take (((l.length : ℤ) + k).toNat)

/-- Embedding of `truncate_field` (the default limit at the call sites
is 1024; the claims quantify over the limit, so it is explicit). -/
def truncate_field (text : String) (limit : ℕ) : String :=
  if text.length ≤ limit then text
  else ⟨pySliceTo text.data ((limit : ℤ) - 4) ++ ['\n', '.', '.', '.']⟩

/-- Specification-side definition (from the spec wording, not the
source): the lines of a text, split on newline. -/
def specLines (l : List Char) : List (List Char) :=
  match l with
  | [] => [[]]
  | c :: t =>
    let r := specLines t
    if c = '\n' then [] :: r
    else
      match r with
      | [] => [[c]]
      | h :: rt => (c :: h) :: rt

/-- Specification-side definition (from the spec wording, not the
source): `chunk` is a concatenation of whole leading lines of `orig`,
i.e. the first k lines joined with newlines, for some k. -/
def specWholeLeadingLines (orig chunk : List Char) : Bool :=
  (List.range (specLines orig).length.succ).any
    (fun k => chunk = (((specLines orig).take k).intersperse ['\n']).flatten)

theorem lexLt_cons_iff {a b : Char} {as bs : List Char} :
    lexLt (a :: as) (b :: bs) = true ↔ a < b ∨ (a = b ∧ lexLt as bs = true) := by
  by_cases h1 : a < b
  · simp [lexLt, h1]
  · by_cases h2 : b < a
    · have hne : ¬ a = b := fun h => h1 (h ▸ h2)
      simp [lexLt, h1, h2, hne]
    · have heq : a = b := le_antisymm (le_of_not_lt h2) (le_of_not_lt h1)
      simp [lexLt, h1, h2, heq]

theorem lexLt_irrefl : ∀ l : List Char, lexLt l l = false
  | [] => rfl
  | c :: t => by simp [lexLt, lt_irrefl, lexLt_irrefl t]

theorem lexLt_trans : ∀ {a b c : List Char},
    lexLt a b = true → lexLt b c = true → lexLt a c = true
  | [], _ :: _, _ :: _, _, _ => rfl
  | x :: as, y :: bs, z :: cs, h1, h2 => by
    rcases lexLt_cons_iff.1 h1 with hxy | ⟨hxy, h1'⟩ <;>
      rcases lexLt_cons_iff.1 h2 with hyz | ⟨hyz, h2'⟩
    · exact lexLt_cons_iff.2 (Or.inl (lt_trans hxy hyz))
    · exact lexLt_cons_iff.2 (Or.inl (hyz ▸ hxy))
    · exact lexLt_cons_iff.2 (Or.inl (hxy ▸ hyz))
    · exact lexLt_cons_iff.2 (Or.inr ⟨hxy.trans hyz, lexLt_trans h1' h2'⟩)

theorem lexLt_trichotomy : ∀ a b : List Char,
    lexLt a b = true ∨ a = b ∨ lexLt b a = true
  | [], [] => Or.inr (Or.inl rfl)
  | [], _ :: _ => Or.inl rfl
  | _ :: _, [] => Or.inr (Or.inr rfl)
  | x :: as, y :: bs => by
    rcases lt_trichotomy x y with hxy | hxy | hxy
    · exact Or.inl (lexLt_cons_iff.2 (Or.inl hxy))
    · rcases lexLt_trichotomy as bs with h | h | h
      · exact Or.inl (lexLt_cons_iff.2 (Or.inr ⟨hxy, h⟩))
      · exact Or.inr (Or.inl (by rw [hxy, h]))
      · exact Or.inr (Or.inr (lexLt_cons_iff.2 (Or.inr ⟨hxy.symm, h⟩)))
    · exact Or.inr (Or.inr (lexLt_cons_iff.2 (Or.inl hxy)))

theorem lexLt_asymm {a b : List Char} (h : lexLt a b = true) : lexLt b a = false := by
  by_contra hc
  have hba : lexLt b a = true := by
    cases hres : lexLt b a
    · exact absurd hres hc
    · rfl
  have : lexLt a a = true := lexLt_trans h hba
  rw [lexLt_irrefl] at this
  exact Bool.false_ne_true this

theorem stringDataEq : ∀ {a b : String}, a.data = b.data → a = b
  | ⟨_⟩, ⟨_⟩, h => congrArg String.mk h

instance : IsTotal String keyLe := by
  constructor
  intro a b
  rcases lexLt_trichotomy a.data b.data with h | h | h
  · exact Or.inl (by simp [keyLe, lexLe, lexLt_asymm h])
  · exact Or.inl (by simp [keyLe, lexLe, h, lexLt_irrefl])
  · exact Or.inr (by simp [keyLe, lexLe, lexLt_asymm h])

instance : IsTrans String keyLe := by
  constructor
  intro a b c hab hbc
  simp only [keyLe, lexLe, Bool.not_eq_true'] at hab hbc ⊢
  by_contra hc
  have hca : lexLt c.data a.data = true := by
    cases hres : lexLt c.data a.data
    · exact absurd hres hc
    · rfl
  rcases lexLt_trichotomy c.data b.data with h | h | h
  · rw [h] at hbc; simp at hbc
  · rw [← h] at hab; rw [hca] at hab; simp at hab
  · have hta := lexLt_trans h hca
    rw [hta] at hab
    simp at hab

theorem keyLt_of_keyLe_ne {a b : String} (hle : keyLe a b) (hne : a ≠ b) : keyLt a b := by
  rcases lexLt_trichotomy a.data b.data with h | h | h
  · exact h
  · exact absurd (stringDataEq h) hne
  · simp [keyLe, lexLe, h] at hle

/-- The sorted key list is strictly ascending and has exactly the
members of the input key list (stated for deduplicated inputs). -/
theorem sortKeys_sorted_mem (l : List String) (hn : l.Nodup) :
    (sortKeys l).Sorted keyLt ∧ ∀ k, k ∈ sortKeys l ↔ k ∈ l := by
  have hperm : (sortKeys l).Perm l := List.perm_insertionSort keyLe l
  have hsorted : (sortKeys l).Sorted keyLe := List.sorted_insertionSort keyLe l
  have hnodup : (sortKeys l).Nodup := hperm.nodup_iff.2 hn
  constructor
  · exact List.Pairwise.imp₂ (fun a b hab hne => keyLt_of_keyLe_ne hab hne) hsorted hnodup
  · exact fun k => hperm.mem_iff

theorem alookup_mem {α : Type} : ∀ {l : List (String × α)} {k : String} {v : α},
    alookup l k = some v → (k, v) ∈ l
  | (k1, v1) :: t, k, v, h => by
    simp only [alookup] at h
    split at h
    · next heq =>
      obtain rfl := heq
      obtain rfl := Option.some.inj h
      exact List.mem_cons_self _ _
    · exact List.mem_cons_of_mem _ (alookup_mem h)

theorem mem_ids_alookup : ∀ {m : MemberMap} {k : String},
    k ∈ idsOf m → ∃ v, alookup m k = some v := by
  intro m
  induction m with
  | nil => intro k h; simp [idsOf] at h
  | cons p t ih =>
    intro k h
    by_cases hk : p.1 = k
    · exact ⟨p.2, by simp [alookup, hk]⟩
    · have : k ∈ idsOf t := by
        simp only [idsOf, List.mem_dedup, List.map_cons, List.mem_cons] at h ⊢
        exact h.resolve_left (fun hh => hk hh.symm)
      obtain ⟨v, hv⟩ := ih this
      exact ⟨v, by simpa [alookup, hk] using hv⟩

/-- C1 (amended).  Whenever `detect_changes` returns a change set, its
joined list consists of exactly the members whose keys are in the
current map and not the previous one, built from the current records
and listed in strictly ascending key order, and symmetrically for the
left list; a key present in both maps appears in neither. -/
theorem C1_join_leave (prev curr : MemberMap) (c : ChangeSet)
    (h : detect_changes prev curr = some c) :
    (∃ d : List String, List.Sorted keyLt d ∧
      (∀ k, k ∈ d ↔ (k ∈ idsOf curr ∧ k ∉ idsOf prev)) ∧
      c.joined = d.map (mkEventRec curr)) ∧
    (∃ d : List String, List.Sorted keyLt d ∧
      (∀ k, k ∈ d ↔ (k ∈ idsOf prev ∧ k ∉ idsOf curr)) ∧
      c.left = d.map (mkEventRec prev)) := by
  obtain ⟨u, _, hfc⟩ := Option.map_eq_some'.1 h
  have hj : c.joined = joinedOf prev curr := by rw [← hfc]
  have hl : c.left = leftOf prev curr := by rw [← hfc]
  constructor
  · have hnod : ((idsOf curr).filter (fun k => k ∉ idsOf prev)).Nodup :=
      List.Nodup.filter _ (List.nodup_dedup _)
    obtain ⟨hsort, hmem⟩ :=
      sortKeys_sorted_mem ((idsOf curr).filter (fun k => k ∉ idsOf prev)) hnod
    refine ⟨_, hsort, ?_, hj⟩
    intro k
    rw [hmem k]
    simp [List.mem_filter]
  · have hnod : ((idsOf prev).filter (fun k => k ∉ idsOf curr)).Nodup :=
      List.Nodup.filter _ (List.nodup_dedup _)
    obtain ⟨hsort, hmem⟩ :=
      sortKeys_sorted_mem ((idsOf prev).filter (fun k => k ∉ idsOf curr)) hnod
    refine ⟨_, hsort, ?_, hl⟩
    intro k
    rw [hmem k]
    simp [List.mem_filter]

/-- C1 counterexample.  As literally stated the claim fails: when a
member present in both maps has a non-numeric level string,
`detect_changes` raises (returns nothing), so the joined member with
key "2" is never reported even though its key is in curr and not in
prev. -/
theorem C1_counterexample :
    detect_changes [("1", ⟨some "A", some "abc", some "1"⟩)]
        [("1", ⟨some "A", some "abc", some "1"⟩), ("2", ⟨some "B", some "5", some "2"⟩)] = none ∧
    "2" ∈ idsOf [("1", ⟨some "A", some "abc", some "1"⟩), ("2", ⟨some "B", some "5", some "2"⟩)] ∧
    "2" ∉ idsOf [("1", ⟨some "A", some "abc", some "1"⟩)] := by
  decide

/-- C1 witness at a concrete pair of maps. -/
theorem C1_join_leave_witness :
    (∃ d : List String, List.Sorted keyLt d ∧
      (∀ k, k ∈ d ↔ (k ∈ idsOf [("a", ⟨none, none, none⟩), ("b", ⟨none, none, none⟩),
          ("c", ⟨none, none, none⟩)] ∧ k ∉ idsOf [("b", ⟨none, none, none⟩)])) ∧
      (⟨[⟨"a", "?", "0"⟩, ⟨"c", "?", "0"⟩], [], []⟩ : ChangeSet).joined =
        d.map (mkEventRec [("a", ⟨none, none, none⟩), ("b", ⟨none, none, none⟩),
          ("c", ⟨none, none, none⟩)])) ∧
    (∃ d : List String, List.Sorted keyLt d ∧
      (∀ k, k ∈ d ↔ (k ∈ idsOf [("b", ⟨none, none, none⟩)] ∧
        k ∉ idsOf [("a", ⟨none, none, none⟩), ("b", ⟨none, none, none⟩),
          ("c", ⟨none, none, none⟩)])) ∧
      (⟨[⟨"a", "?", "0"⟩, ⟨"c", "?", "0"⟩], [], []⟩ : ChangeSet).left =
        d.map (mkEventRec [("b", ⟨none, none, none⟩)])) :=
  C1_join_leave [("b", ⟨none, none, none⟩)]
    [("a", ⟨none, none, none⟩), ("b", ⟨none, none, none⟩), ("c", ⟨none, none, none⟩)]
    ⟨[⟨"a", "?", "0"⟩, ⟨"c", "?", "0"⟩], [], []⟩ (by decide)

/-- C3 (amended).  A current snapshot below the sanity threshold makes
both entry points short-circuit before any reconciliation or
notification, but with exit status zero, not a non-zero one. -/
theorem C3_sanity_guard (prevCount currCount : ℕ) (h : currCount < 10) :
    hourlyGuardExit prevCount currCount = some 0 ∧ dailyGuardExit currCount = some 0 := by
  simp [hourlyGuardExit, dailyGuardExit, h]

/-- C3 counterexample.  At a member count of 5 the guards exit with
status 0, so the claimed non-zero exit status does not occur. -/
theorem C3_counterexample :
    hourlyGuardExit 50 5 = some 0 ∧ dailyGuardExit 5 = some 0 ∧
    ¬ ∃ e, hourlyGuardExit 50 5 = some e ∧ e ≠ 0 := by
  refine ⟨rfl, rfl, ?_⟩
  rintro ⟨e, he, hne⟩
  have h0 : hourlyGuardExit 50 5 = some 0 := rfl
  rw [h0] at he
  exact hne (Option.some.inj he).symm

/-- C3 witness at concrete member counts. -/
theorem C3_sanity_guard_witness :
    hourlyGuardExit 40 3 = some 0 ∧ dailyGuardExit 3 = some 0 :=
  C3_sanity_guard 40 3 (by decide)

theorem filter_twice_nil {α : Type} (key : α → String) (items : List α)
    (sent0 more : List String)
    (h : ∀ r ∈ items, key r ∉ sent0 → key r ∈ more) :
    items.filter (fun r => decide (key r ∉ sent0 ++ more)) = [] := by
  rw [List.filter_eq_nil_iff]
  intro r hr hdec
  have hnot := of_decide_eq_true hdec
  by_cases h0 : key r ∈ sent0
  · exact hnot (List.mem_append_left _ h0)
  · exact hnot (List.mem_append_right _ (h r hr h0))

/-- C8.  Running the dedup cycle (filter unsent, then record all
attempted keys) twice with the same date pair and the same change set
leaves nothing to send on the second run. -/
theorem C8_dedup_idempotent (dk : String) (c : ChangeSet) (st : Ledger) :
    ((dedupCycle dk c (dedupCycle dk c st).2).1).joined = [] ∧
    ((dedupCycle dk c (dedupCycle dk c st).2).1).left = [] ∧
    ((dedupCycle dk c (dedupCycle dk c st).2).1).level_ups = [] := by
  have hdates : ((dedupCycle dk c st).2).dates = some dk := rfl
  set sent0 := if st.dates = some dk then st.sent else [] with hs0
  have hsent : ((dedupCycle dk c st).2).sent = sent0 ++ keysOf (filter_unsent c sent0) := rfl
  have hsecond : (dedupCycle dk c (dedupCycle dk c st).2).1 =
      filter_unsent c (sent0 ++ keysOf (filter_unsent c sent0)) := by
    show filter_unsent c (if (dedupCycle dk c st).2.dates = some dk
        then (dedupCycle dk c st).2.sent else []) = _
    rw [hdates, if_pos rfl, hsent]
  rw [hsecond]
  refine ⟨?_, ?_, ?_⟩
  · refine filter_twice_nil joinedKey c.joined sent0 _ ?_
    intro r hr h0
    have hmem : r ∈ (filter_unsent c sent0).joined :=
      List.mem_filter.2 ⟨hr, by simp [h0]⟩
    exact List.mem_append_left _ (List.mem_append_left _ (List.mem_map_of_mem _ hmem))
  · refine filter_twice_nil leftKey c.left sent0 _ ?_
    intro r hr h0
    have hmem : r ∈ (filter_unsent c sent0).left :=
      List.mem_filter.2 ⟨hr, by simp [h0]⟩
    exact List.mem_append_left _ (List.mem_append_right _ (List.mem_map_of_mem _ hmem))
  · refine filter_twice_nil levelupKey c.level_ups sent0 _ ?_
    intro r hr h0
    have hmem : r ∈ (filter_unsent c sent0).level_ups :=
      List.mem_filter.2 ⟨hr, by simp [h0]⟩
    exact List.mem_append_right _ (List.mem_map_of_mem _ hmem)

/-- C9 (amended).  With a limit of at least 4, a text at or under the
limit is returned unchanged; a longer text is cut to its first
limit-minus-4 characters (possibly mid-line) plus the four-character
marker, for a total length of exactly the limit. -/
theorem C9_truncate (text : String) (limit : ℕ) (h4 : 4 ≤ limit) :
    (text.length ≤ limit → truncate_field text limit = text) ∧
    (limit < text.length →
      (truncate_field text limit).data =
        text.data.take (limit - 4) ++ ['\n', '.', '.', '.'] ∧
      (truncate_field text limit).length = limit) := by
  constructor
  · intro hle
    unfold truncate_field
    rw [if_pos hle]
  · intro hgt
    have hnle : ¬ text.length ≤ limit := not_le.2 hgt
    have hk : (0 : ℤ) ≤ (limit : ℤ) - 4 := by omega
    have htn : ((limit : ℤ) - 4).toNat = limit - 4 := by omega
    have hdata : (truncate_field text limit).data =
        text.data.take (limit - 4) ++ ['\n', '.', '.', '.'] := by
      unfold truncate_field
      rw [if_neg hnle]
      show pySliceTo text.data ((limit : ℤ) - 4) ++ _ = _
      unfold pySliceTo
      rw [if_pos hk, htn]
    refine ⟨hdata, ?_⟩
    show (truncate_field text limit).data.length = limit
    rw [hdata]
    have hgt2 : limit < text.data.length := hgt
    simp only [List.length_append, List.length_take, List.length_cons, List.length_nil]
    omega

/-- C9 counterexample.  At limit 8 the text of a 6-character first
line is cut mid-line to "aaaa" (not a whole leading line), and at
limit 2 the result is longer than the limit. -/
theorem C9_counterexample :
    (truncate_field "aaaaaa\nbb" 8).data = "aaaa\n...".data ∧
    specWholeLeadingLines "aaaaaa\nbb".data "aaaa".data = false ∧
    2 < (truncate_field "abcdefghij" 2).data.length := by
  decide

/-- C9 witness at a concrete text and limit. -/
theorem C9_truncate_witness :
    ("abcdefghij".length ≤ 8 → truncate_field "abcdefghij" 8 = "abcdefghij") ∧
    (8 < "abcdefghij".length →
      (truncate_field "abcdefghij" 8).data =
        "abcdefghij".data.take (8 - 4) ++ ['\n', '.', '.', '.'] ∧
      (truncate_field "abcdefghij" 8).length = 8) :=
  C9_truncate "abcdefghij" 8 (by decide)

/-- A record whose effective level string parses as a Python int. -/
def levelParses (r : Member) : Prop := (pyInt (effLevel r).data).isSome = true

instance (r : Member) : Decidable (levelParses r) :=
  inferInstanceAs (Decidable ((pyInt (effLevel r).data).isSome = true))

theorem levelUpsGo_total (prev curr : MemberMap) :
    ∀ L : List String,
    (∀ mid ∈ L, levelParses (levelAt prev mid) ∧ levelParses (levelAt curr mid)) →
    ∃ t, levelUpsGo prev curr L = some t
  | [], _ => ⟨[], rfl⟩
  | mid :: rest, h => by
    obtain ⟨hp, hc⟩ := h mid (List.mem_cons_self _ _)
    obtain ⟨pl, hpl⟩ := Option.isSome_iff_exists.1 hp
    obtain ⟨cl, hcl⟩ := Option.isSome_iff_exists.1 hc
    obtain ⟨t, ht⟩ := levelUpsGo_total prev curr rest
      (fun m hm => h m (List.mem_cons_of_mem _ hm))
    refine ⟨if pl < cl then
      ⟨((levelAt curr mid).name).getD mid, ⟨intRepr pl⟩, ⟨intRepr cl⟩⟩ :: t else t, ?_⟩
    simp only [levelUpsGo, hpl, hcl, ht, Option.map_some']

/-- C6 (amended).  `detect_changes` is total provided every member
present in both maps has a level field that is missing, empty, or a
numeric string (missing and empty levels degrade to 0); members in
only one map never have their level parsed, so their level may be any
string.  (The counterexample shows a non-numeric level on a shared
member raises, so the original unrestricted claim fails.) -/
theorem C6_level_totality (prev curr : MemberMap)
    (hshared : ∀ mid ∈ idsOf prev, mid ∈ idsOf curr →
      levelParses (levelAt prev mid) ∧ levelParses (levelAt curr mid)) :
    ∃ c, detect_changes prev curr = some c := by
  have hgo : ∀ mid ∈ sortKeys ((idsOf prev).filter (fun k => k ∈ idsOf curr)),
      levelParses (levelAt prev mid) ∧ levelParses (levelAt curr mid) := by
    intro mid hmid
    have hperm := (List.perm_insertionSort keyLe
      ((idsOf prev).filter (fun k => k ∈ idsOf curr))).mem_iff.1 hmid
    have hmemf := List.mem_filter.1 hperm
    exact hshared mid hmemf.1 (by simpa using hmemf.2)
  obtain ⟨t, ht⟩ := levelUpsGo_total prev curr _ hgo
  exact ⟨⟨joinedOf prev curr, leftOf prev curr, t⟩, by
    simp only [detect_changes, levelUpsOf, ht, Option.map_some']⟩

/-- C6 counterexample.  A member present in both maps with the
non-numeric level "abc" makes `detect_changes` raise instead of
treating the level as 0. -/
theorem C6_counterexample :
    detect_changes [("9", ⟨some "Z", some "abc", some "3"⟩)]
      [("9", ⟨some "Z", some "abc", some "3"⟩)] = none := by
  decide

/-- C6 witness: the shared member's missing and empty levels parse as
0, and the leave-only and join-only members carry non-numeric levels
that are never parsed, so nothing raises. -/
theorem C6_level_totality_witness :
    ∃ c, detect_changes
      [("1", ⟨some "A", none, some "1"⟩), ("2", ⟨some "B", some "abc", some "2"⟩)]
      [("1", ⟨some "A", some "", some "1"⟩), ("3", ⟨some "C", some "xyz", some "3"⟩)]
      = some c :=
  C6_level_totality
    [("1", ⟨some "A", none, some "1"⟩), ("2", ⟨some "B", some "abc", some "2"⟩)]
    [("1", ⟨some "A", some "", some "1"⟩), ("3", ⟨some "C", some "xyz", some "3"⟩)]
    (by decide)

/-- C7 (amended).  `find_power_movers` returns two empty lists when
the resolved anchor snapshot has no member data (in particular when
the history is empty); but when the history is nonempty and every
snapshot is more recent than the 7-day target, the oldest snapshot is
used as a fallback anchor, so the lists need not be empty. -/
theorem C7_empty_anchor (members : List CMember) (history : List SdnSnap) (target : String)
    (h : ∀ s, get_snapshot_days_ago history target = some s → s.members = []) :
    find_power_movers members history target = some ([], []) := by
  unfold find_power_movers
  cases hg : get_snapshot_days_ago history target with
  | none => rfl
  | some s => simp [h s hg]

/-- C7 witness: a history whose only snapshot has no member data. -/
theorem C7_empty_anchor_witness :
    find_power_movers [⟨some "1", "A", some "5000"⟩] [⟨"2026-02-15", []⟩] "2026-02-08"
      = some ([], []) :=
  C7_empty_anchor _ _ _ (by
    intro s hs
    simp only [get_snapshot_days_ago, List.foldl] at hs
    split at hs
    · cases hs; rfl
    · cases hs; rfl)

/-- A character of the numeric group: digit or dot, not a suffix
letter, not whitespace, not a comma. -/
def goodNumChar (c : Char) : Prop :=
  isDigitDot c = true ∧ isSuffix c = false ∧ isPySpace c = false ∧ c ≠ ','

/-- A magnitude-suffix character, disjoint from the numeric group,
whitespace and comma. -/
def goodSufChar (c : Char) : Prop :=
  isSuffix c = true ∧ isDigitDot c = false ∧ isPySpace c = false ∧ c ≠ ','

instance (c : Char) : Decidable (goodNumChar c) := by
  unfold goodNumChar
  infer_instance

instance (c : Char) : Decidable (goodSufChar c) := by
  unfold goodSufChar
  infer_instance

theorem isDigit_ne_signs {c : Char} (h : c.isDigit = true) :
    c ≠ '+' ∧ c ≠ '-' ∧ c ≠ '.' := by
  refine ⟨?_, ?_, ?_⟩ <;> rintro rfl <;> exact absurd h (by decide)

theorem isDigit_not_space {c : Char} (h : c.isDigit = true) : isPySpace c = false := by
  cases hs : isPySpace c
  · rfl
  · exfalso
    simp only [isPySpace, Bool.or_eq_true, decide_eq_true_eq] at hs
    rcases hs with ((((h1 | h1) | h1) | h1) | h1) | h1 <;> subst h1 <;> exact absurd h (by decide)

theorem digitChar_isDigit {d : ℕ} (h : d < 10) : (Nat.digitChar d).isDigit = true := by
  interval_cases d <;> decide

theorem digitChar_val {d : ℕ} (h : d < 10) : (Nat.digitChar d).toNat - 48 = d := by
  interval_cases d <;> decide

theorem digitChar_good {d : ℕ} (h : d < 10) : goodNumChar (Nat.digitChar d) := by
  interval_cases d <;> exact (by decide)

theorem digitChar_ne_zero {d : ℕ} (h : d < 10) (h0 : d ≠ 0) : Nat.digitChar d ≠ '0' := by
  interval_cases d <;> simp_all <;> decide

theorem takeWhile_all {p : Char → Bool} : ∀ {l : List Char},
    (∀ c ∈ l, p c = true) → l.takeWhile p = l ∧ l.dropWhile p = [] := by
  intro l h
  exact ⟨List.takeWhile_eq_self_iff.2 h, List.dropWhile_eq_nil_iff.2 h⟩

theorem takeWhile_append_stop {p : Char → Bool} {c : Char} (hc : p c = false) :
    ∀ {A : List Char} (B : List Char), (∀ a ∈ A, p a = true) →
    (A ++ c :: B).takeWhile p = A ∧ (A ++ c :: B).dropWhile p = c :: B := by
  intro A
  induction A with
  | nil =>
    intro B _
    constructor
    · simp [List.takeWhile, hc]
    · simp [List.dropWhile, hc]
  | cons a A ih =>
    intro B hA
    have ha : p a = true := hA a (List.mem_cons_self _ _)
    have hrest := ih B (fun x hx => hA x (List.mem_cons_of_mem _ hx))
    constructor
    · simp [List.takeWhile, ha, hrest.1]
    · simp [List.dropWhile, ha, hrest.2]

theorem dropWhile_all_false {p : Char → Bool} {l : List Char}
    (h : ∀ c ∈ l, p c = false) : l.dropWhile p = l := by
  cases l with
  | nil => rfl
  | cons a t => simp [List.dropWhile, h a (List.mem_cons_self _ _)]

theorem stripEnds_id {l : List Char} (h : ∀ c ∈ l, isPySpace c = false) :
    stripEnds l = l := by
  unfold stripEnds
  rw [dropWhile_all_false h]
  rw [dropWhile_all_false (fun c hc => h c (List.mem_reverse.1 hc))]
  exact List.reverse_reverse l

theorem removeCommas_id {l : List Char} (h : ∀ c ∈ l, c ≠ ',') :
    removeCommas l = l := by
  unfold removeCommas
  rw [List.filter_eq_self]
  intro a ha
  simpa using h a ha

theorem signSplit_no_sign : ∀ {t : List Char},
    (∀ c ∈ t.take 1, c ≠ '+' ∧ c ≠ '-') → signSplit t = (false, t) := by
  intro t h
  cases t with
  | nil => rfl
  | cons a r =>
    have := h a (by simp)
    simp [signSplit, this.1, this.2]

theorem digitsToNat_renders (ds : List ℕ) (h : ∀ d ∈ ds, d < 10) :
    digitsToNat (ds.reverse.map Nat.digitChar) = Nat.ofDigits 10 ds := by
  induction ds with
  | nil => rfl
  | cons d rest ih =>
    have hd : d < 10 := h d (List.mem_cons_self _ _)
    have hih := ih (fun x hx => h x (List.mem_cons_of_mem _ hx))
    simp only [List.reverse_cons, List.map_append, List.map_cons, List.map_nil]
    unfold digitsToNat at hih ⊢
    rw [List.foldl_concat, hih, Nat.ofDigits_cons, digitChar_val hd]
    ring

theorem digitsToNat_natRepr (n : ℕ) : digitsToNat (natRepr n) = n := by
  by_cases h0 : n = 0
  · subst h0; decide
  · unfold natRepr
    rw [if_neg h0]
    rw [digitsToNat_renders _ (fun d hd => Nat.digits_lt_base (by norm_num) hd)]
    exact Nat.ofDigits_digits 10 n

theorem natRepr_isDigit (n : ℕ) : ∀ c ∈ natRepr n, c.isDigit = true := by
  intro c hc
  unfold natRepr at hc
  by_cases h0 : n = 0
  · rw [if_pos h0] at hc
    simp at hc
    subst hc
    decide
  · rw [if_neg h0] at hc
    obtain ⟨d, hd, rfl⟩ := List.mem_map.1 hc
    exact digitChar_isDigit (Nat.digits_lt_base (by norm_num) (List.mem_reverse.1 hd))

theorem natRepr_good (n : ℕ) : ∀ c ∈ natRepr n, goodNumChar c := by
  intro c hc
  unfold natRepr at hc
  by_cases h0 : n = 0
  · rw [if_pos h0] at hc
    simp at hc
    subst hc
    decide
  · rw [if_neg h0] at hc
    obtain ⟨d, hd, rfl⟩ := List.mem_map.1 hc
    exact digitChar_good (Nat.digits_lt_base (by norm_num) (List.mem_reverse.1 hd))

theorem natRepr_ne_nil (n : ℕ) : natRepr n ≠ [] := by
  unfold natRepr
  by_cases h0 : n = 0
  · simp [h0]
  · rw [if_neg h0]
    simp [Nat.digits_ne_nil_iff_ne_zero.2 h0]

theorem digitsToNat_nil : digitsToNat [] = 0 := rfl

theorem pyFloat_digits {A : List Char} (hA : A ≠ [])
    (hAd : ∀ c ∈ A, c.isDigit = true) :
    pyFloat A = some ((digitsToNat A : ℚ)) := by
  obtain ⟨a, A', rfl⟩ := List.exists_cons_of_ne_nil hA
  have ha := hAd a (List.mem_cons_self _ _)
  have hse : stripEnds (a :: A') = a :: A' :=
    stripEnds_id (fun c hc => isDigit_not_space (hAd c hc))
  have hss : signSplit (a :: A') = (false, a :: A') :=
    signSplit_no_sign (by
      intro c hc
      simp only [List.take_succ_cons, List.take_zero, List.mem_singleton] at hc
      subst hc
      exact ⟨(isDigit_ne_signs ha).1, (isDigit_ne_signs ha).2.1⟩)
  have htk := takeWhile_all (p := Char.isDigit) hAd
  simp only [pyFloat, hse, hss, htk.1, htk.2, dotSplit]
  simp [digitsToNat_nil]

theorem pyFloat_digits_dot {A B : List Char} (hA : A ≠ [])
    (hAd : ∀ c ∈ A, c.isDigit = true) (hBd : ∀ c ∈ B, c.isDigit = true) :
    pyFloat (A ++ '.' :: B) =
      some ((digitsToNat A : ℚ) + (digitsToNat B : ℚ) / (10 : ℚ) ^ B.length) := by
  obtain ⟨a, A', rfl⟩ := List.exists_cons_of_ne_nil hA
  have ha := hAd a (List.mem_cons_self _ _)
  have hse : stripEnds ((a :: A') ++ '.' :: B) = (a :: A') ++ '.' :: B := by
    refine stripEnds_id ?_
    intro c hc
    rcases List.mem_append.1 hc with hc | hc
    · exact isDigit_not_space (hAd c hc)
    · rcases List.mem_cons.1 hc with rfl | hc
      · decide
      · exact isDigit_not_space (hBd c hc)
  have hss : signSplit ((a :: A') ++ '.' :: B) = (false, (a :: A') ++ '.' :: B) := by
    refine signSplit_no_sign ?_
    intro c hc
    simp only [List.cons_append, List.take_succ_cons, List.take_zero,
      List.mem_singleton] at hc
    subst hc
    exact ⟨(isDigit_ne_signs ha).1, (isDigit_ne_signs ha).2.1⟩
  have hsplit := takeWhile_append_stop (p := Char.isDigit) (c := '.') (by decide) B hAd
  have hBtk := takeWhile_all (p := Char.isDigit) hBd
  simp only [pyFloat, hse, hss, hsplit.1, hsplit.2, dotSplit, if_pos, hBtk.1, hBtk.2]
  simp

theorem rstripZeros_eq_self {l : List Char} (h : l.getLast? ≠ some '0') :
    rstripZeros l = l := by
  unfold rstripZeros
  rw [List.getLast?_eq_head?_reverse] at h
  cases hl : l.reverse with
  | nil =>
    have : l = [] := by simpa using congrArg List.reverse hl
    simp [this]
  | cons g R =>
    rw [hl] at h
    have hg : ¬ (g = '0') := fun he => h (by simp [he])
    rw [List.dropWhile_cons_of_neg (by simpa using hg)]
    rw [← hl, List.reverse_reverse]

theorem rstripDot_eq_self {l : List Char} (h : l.getLast? ≠ some '.') :
    rstripDot l = l := by
  unfold rstripDot
  rw [List.getLast?_eq_head?_reverse] at h
  cases hl : l.reverse with
  | nil =>
    have : l = [] := by simpa using congrArg List.reverse hl
    simp [this]
  | cons g R =>
    rw [hl] at h
    have hg : ¬ (g = '.') := fun he => h (by simp [he])
    rw [List.dropWhile_cons_of_neg (by simpa using hg)]
    rw [← hl, List.reverse_reverse]

theorem getLast?_append_three (A : List Char) (c1 c2 c3 : Char) :
    (A ++ [c1, c2, c3]).getLast? = some c3 := by
  have : A ++ [c1, c2, c3] = (A ++ [c1, c2]) ++ [c3] := by simp
  rw [this, List.getLast?_concat]

theorem getLast?_append_two (A : List Char) (c1 c2 : Char) :
    (A ++ [c1, c2]).getLast? = some c2 := by
  have : A ++ [c1, c2] = (A ++ [c1]) ++ [c2] := by simp
  rw [this, List.getLast?_concat]

theorem stripZeroDot_caseTwo (A : List Char) (c1 c2 : Char)
    (_h1 : c1.isDigit = true) (h2 : c2.isDigit = true) (h20 : c2 ≠ '0') :
    stripZeroDot (A ++ ['.', c1, c2]) = A ++ ['.', c1, c2] := by
  unfold stripZeroDot
  rw [rstripZeros_eq_self (by rw [getLast?_append_three]; intro hc; exact h20 (Option.some.inj hc))]
  rw [rstripDot_eq_self (by
    rw [getLast?_append_three]
    intro hc
    exact (isDigit_ne_signs h2).2.2 (Option.some.inj hc))]

theorem stripZeroDot_caseOne (A : List Char) (c1 : Char)
    (h1 : c1.isDigit = true) (h10 : c1 ≠ '0') :
    stripZeroDot (A ++ ['.', c1, '0']) = A ++ ['.', c1] := by
  have hz : rstripZeros (A ++ ['.', c1, '0']) = A ++ ['.', c1] := by
    unfold rstripZeros
    have hrev : (A ++ ['.', c1, '0']).reverse = '0' :: c1 :: '.' :: A.reverse := by simp
    rw [hrev]
    rw [List.dropWhile_cons_of_pos (by simp)]
    rw [List.dropWhile_cons_of_neg (by simpa using h10)]
    simp
  unfold stripZeroDot
  rw [hz]
  rw [rstripDot_eq_self (by
    rw [getLast?_append_two]
    intro hc
    exact (isDigit_ne_signs h1).2.2 (Option.some.inj hc))]

theorem stripZeroDot_caseZero (A : List Char) (hA : A ≠ [])
    (hAd : ∀ c ∈ A, c.isDigit = true) :
    stripZeroDot (A ++ ['.', '0', '0']) = A := by
  have hz : rstripZeros (A ++ ['.', '0', '0']) = A ++ ['.'] := by
    unfold rstripZeros
    have hrev : (A ++ ['.', '0', '0']).reverse = '0' :: '0' :: '.' :: A.reverse := by simp
    rw [hrev]
    rw [List.dropWhile_cons_of_pos (by simp), List.dropWhile_cons_of_pos (by simp)]
    rw [List.dropWhile_cons_of_neg (by simp)]
    simp
  unfold stripZeroDot
  rw [hz]
  unfold rstripDot
  have hrev : (A ++ ['.']).reverse = '.' :: A.reverse := by simp
  rw [hrev]
  rw [List.dropWhile_cons_of_pos (by simp)]
  cases hl : A.reverse with
  | nil =>
    exact absurd (by simpa using congrArg List.reverse hl) hA
  | cons g R =>
    have hgmem : g ∈ A := List.mem_reverse.1 (by rw [hl]; exact List.mem_cons_self _ _)
    have hgd := hAd g hgmem
    rw [List.dropWhile_cons_of_neg (by
      simp only [decide_eq_true_eq]
      exact (isDigit_ne_signs hgd).2.2)]
    rw [← hl, List.reverse_reverse]

theorem digitsToNat_single (c : Char) : digitsToNat [c] = c.toNat - 48 := by
  simp [digitsToNat]

theorem digitsToNat_pair (c1 c2 : Char) :
    digitsToNat [c1, c2] = 10 * (c1.toNat - 48) + (c2.toNat - 48) := by
  simp [digitsToNat]

/-- The stripped two-decimal rendering of `h` hundredths parses back
to exactly `h / 100`, is nonempty, and consists only of numeric-group
characters. -/
theorem fmt2N_parse (h : ℕ) :
    pyFloat (stripZeroDot (fmt2N h)) = some ((h : ℚ) / 100) ∧
    (∀ c ∈ stripZeroDot (fmt2N h), goodNumChar c) ∧
    stripZeroDot (fmt2N h) ≠ [] := by
  have hfr : h % 100 < 100 := Nat.mod_lt _ (by norm_num)
  have hq : h % 100 / 10 < 10 := by omega
  have hr : h % 100 % 10 < 10 := by omega
  by_cases hfr0 : h % 100 = 0
  · have hfe : fmt2N h = natRepr (h / 100) ++ ['.', '0', '0'] := by
      unfold fmt2N
      rw [hfr0]
      rfl
    rw [hfe, stripZeroDot_caseZero _ (natRepr_ne_nil _) (natRepr_isDigit _)]
    refine ⟨?_, natRepr_good _, natRepr_ne_nil _⟩
    rw [pyFloat_digits (natRepr_ne_nil _) (natRepr_isDigit _), digitsToNat_natRepr]
    have hh : h = 100 * (h / 100) := by omega
    rw [Option.some.injEq, eq_div_iff (by norm_num : (100 : ℚ) ≠ 0)]
    exact_mod_cast (by omega : (h / 100) * 100 = h)
  · by_cases hfr10 : h % 100 % 10 = 0
    · have hk0 : h % 100 / 10 ≠ 0 := by omega
      have hfe : fmt2N h = natRepr (h / 100) ++ ['.', Nat.digitChar (h % 100 / 10), '0'] := by
        unfold fmt2N
        rw [hfr10]
        rfl
      rw [hfe, stripZeroDot_caseOne _ _ (digitChar_isDigit hq) (digitChar_ne_zero hq hk0)]
      refine ⟨?_, ?_, by simp⟩
      · have : natRepr (h / 100) ++ ['.', Nat.digitChar (h % 100 / 10)] =
            natRepr (h / 100) ++ '.' :: [Nat.digitChar (h % 100 / 10)] := rfl
        rw [this, pyFloat_digits_dot (natRepr_ne_nil _) (natRepr_isDigit _)
          (by intro c hc; simp at hc; subst hc; exact digitChar_isDigit hq)]
        rw [digitsToNat_natRepr, digitsToNat_single, digitChar_val hq]
        rw [Option.some.injEq]
        have hh : h = 100 * (h / 100) + 10 * (h % 100 / 10) := by omega
        have hcast : (h : ℚ) = 100 * ((h / 100 : ℕ) : ℚ) + 10 * ((h % 100 / 10 : ℕ) : ℚ) := by
          exact_mod_cast hh
        rw [hcast]
        field_simp
        ring
      · intro c hc
        rcases List.mem_append.1 hc with hc | hc
        · exact natRepr_good _ c hc
        · rcases List.mem_cons.1 hc with rfl | hc
          · decide
          · simp at hc
            subst hc
            exact digitChar_good hq
    · have hfe : fmt2N h = natRepr (h / 100) ++
          ['.', Nat.digitChar (h % 100 / 10), Nat.digitChar (h % 100 % 10)] := rfl
      rw [hfe, stripZeroDot_caseTwo _ _ _ (digitChar_isDigit hq) (digitChar_isDigit hr)
        (digitChar_ne_zero hr hfr10)]
      refine ⟨?_, ?_, by simp⟩
      · have : natRepr (h / 100) ++ ['.', Nat.digitChar (h % 100 / 10), Nat.digitChar (h % 100 % 10)] =
            natRepr (h / 100) ++ '.' :: [Nat.digitChar (h % 100 / 10), Nat.digitChar (h % 100 % 10)] := rfl
        rw [this, pyFloat_digits_dot (natRepr_ne_nil _) (natRepr_isDigit _)
          (by
            intro c hc
            rcases List.mem_cons.1 hc with rfl | hc
            · exact digitChar_isDigit hq
            · simp at hc
              subst hc
              exact digitChar_isDigit hr)]
        rw [digitsToNat_natRepr, digitsToNat_pair, digitChar_val hq, digitChar_val hr]
        rw [Option.some.injEq]
        have hh : h = 100 * (h / 100) + (10 * (h % 100 / 10) + h % 100 % 10) := by omega
        have hcast : (h : ℚ) = 100 * ((h / 100 : ℕ) : ℚ) +
            (10 * ((h % 100 / 10 : ℕ) : ℚ) + ((h % 100 % 10 : ℕ) : ℚ)) := by
          exact_mod_cast hh
        rw [hcast]
        push_cast
        field_simp
        ring
      · intro c hc
        rcases List.mem_append.1 hc with hc | hc
        · exact natRepr_good _ c hc
        · rcases List.mem_cons.1 hc with rfl | hc
          · decide
          · rcases List.mem_cons.1 hc with rfl | hc
            · exact digitChar_good hq
            · simp at hc
              subst hc
              exact digitChar_good hr

theorem parse_abbr_decomp (d suf : List Char) (q : ℚ)
    (hne : d ≠ []) (hchars : ∀ c ∈ d, goodNumChar c)
    (hf : pyFloat d = some q)
    (hsuf : suf = [] ∨ ∃ c, suf = [c] ∧ goodSufChar c) :
    parse_abbr ⟨d ++ suf⟩ = some (q * multOfGroup suf) ∧
    db_parse_abbr ⟨d ++ suf⟩ = some (ratTrunc (q * multOfGroup suf)) := by
  have hstrip : stripEnds (d ++ suf) = d ++ suf := by
    refine stripEnds_id ?_
    intro c hc
    rcases List.mem_append.1 hc with hc | hc
    · exact (hchars c hc).2.2.1
    · rcases hsuf with rfl | ⟨s, rfl, hs⟩
      · simp at hc
      · simp at hc
        subst hc
        exact hs.2.2.1
  have hcomma : removeCommas (d ++ suf) = d ++ suf := by
    refine removeCommas_id ?_
    intro c hc
    rcases List.mem_append.1 hc with hc | hc
    · exact (hchars c hc).2.2.2
    · rcases hsuf with rfl | ⟨s, rfl, hs⟩
      · simp at hc
      · simp at hc
        subst hc
        exact hs.2.2.2
  have hdne : d ++ suf ≠ [] := by
    intro hcon
    exact hne (List.append_eq_nil.1 hcon).1
  have hreg : regexAbbr (d ++ suf) = some (d, suf) := by
    unfold regexAbbr
    rcases hsuf with rfl | ⟨s, rfl, hs⟩
    · have htk := takeWhile_all (p := isDigitDot) (fun c hc => (hchars c hc).1)
      rw [List.append_nil]
      rw [htk.1, htk.2]
      simp [hne]
    · have hsplit := takeWhile_append_stop (p := isDigitDot) (c := s) hs.2.1 []
        (fun c hc => (hchars c hc).1)
      have hds : d ++ [s] = d ++ s :: [] := rfl
      rw [hds, hsplit.1, hsplit.2]
      rw [dropWhile_all_false (by
        intro c hc
        simp at hc
        subst hc
        exact hs.2.2.1)]
      simp [hne, hs.1]
  constructor
  · unfold parse_abbr
    simp only [hstrip, hcomma, hreg, hf]
    simp [hdne]
  · unfold db_parse_abbr
    simp only [hstrip, hcomma]
    rcases hsuf with rfl | ⟨s, rfl, hs⟩
    · rw [List.append_nil] at hdne ⊢
      have hlast : d.getLast? = some (d.getLast hne) := List.getLast?_eq_getLast d hne
      have hnos : isSuffix (d.getLast hne) = false :=
        (hchars _ (List.getLast_mem hne)).2.1
      simp only [hlast, hnos, hf]
      simp [hdne, multOfGroup]
    · have hlast := List.getLast?_concat (a := s) d
      have hdrop := @List.dropLast_concat Char d s
      simp only [hlast, hdrop, hs.1, hf]
      simp [hdne, multOfGroup]

/-- C5 (amended).  On a cleaned numeric group followed by an optional
suffix, `parse_abbr` multiplies the parsed float by the suffix
multiplier and returns the exact product without truncating, while
db.py's `_parse_abbr` truncates the same product toward zero to an
integer; `parse_abbr` is not total (it raises on a matched numeric
group that is not a valid float) and does not truncate, contrary to
the original claim. -/
theorem C5_parse_semantics (d suf : List Char) (q : ℚ)
    (hne : d ≠ []) (hchars : ∀ c ∈ d, goodNumChar c)
    (hf : pyFloat d = some q)
    (hsuf : suf = [] ∨ ∃ c, suf = [c] ∧ goodSufChar c) :
    parse_abbr ⟨d ++ suf⟩ = some (q * multOfGroup suf) ∧
    db_parse_abbr ⟨d ++ suf⟩ = some (ratTrunc (q * multOfGroup suf)) :=
  parse_abbr_decomp d suf q hne hchars hf hsuf

/-- C5 counterexample.  `parse_abbr "1.5"` returns the fractional
value 3/2, not the integer 1 the claim requires, and `parse_abbr`
raises on "1.2.3" (matched numeric group, invalid float), so it does
not return an integer for every input string. -/
theorem C5_counterexample :
    parse_abbr "1.5" = some (3 / 2) ∧ (3 / 2 : ℚ) ≠ 1 ∧ parse_abbr "1.2.3" = none := by
  refine ⟨?_, by norm_num, by decide⟩
  have hf : pyFloat ['1', '.', '5'] = some (3 / 2) := by
    rw [show ['1', '.', '5'] = ['1'] ++ '.' :: ['5'] from rfl]
    rw [pyFloat_digits_dot (by decide) (by decide) (by decide)]
    norm_num [show digitsToNat ['1'] = 1 from by decide,
      show digitsToNat ['5'] = 5 from by decide]
  have h := (parse_abbr_decomp ['1', '.', '5'] [] (3 / 2) (by decide) (by decide) hf
    (Or.inl rfl)).1
  have hstr : ("1.5" : String) = ⟨['1', '.', '5'] ++ []⟩ := rfl
  rw [hstr, h]
  norm_num [multOfGroup]

/-- C5 witness at the concrete input "7K". -/
theorem C5_parse_semantics_witness :
    parse_abbr ⟨['7'] ++ ['K']⟩ = some (7 * multOfGroup ['K']) ∧
    db_parse_abbr ⟨['7'] ++ ['K']⟩ = some (ratTrunc (7 * multOfGroup ['K'])) :=
  C5_parse_semantics ['7'] ['K'] 7 (by decide) (by decide)
    (by
      rw [pyFloat_digits (by decide) (by decide)]
      norm_num [show digitsToNat ['7'] = 7 from by decide])
    (Or.inr ⟨'K', rfl, by decide⟩)

/-- Parse of the stripped two-decimal rendering of `n / T` with the
matching suffix character lands within `T / 200 ≤ n / 200` of `n`. -/
theorem parse_fmt_threshold (n : ℕ) (T : ℚ) (s : Char) (hT : 0 < T)
    (hTn : T ≤ (n : ℚ)) (hs : goodSufChar s) (hm : multOf s = T) :
    ∃ q : ℚ, parse_abbr ⟨stripZeroDot (fmt2 ((n : ℚ) / T)) ++ [s]⟩ = some q ∧
      |q - (n : ℚ)| * 200 ≤ (n : ℚ) := by
  set x : ℚ := (n : ℚ) / T with hx
  have hx0 : 0 ≤ x := div_nonneg (by positivity) hT.le
  set R : ℤ := round (100 * x) with hR
  have hR0 : 0 ≤ R := by
    rw [hR, round_eq, Int.floor_nonneg]
    positivity
  have htn : ((R.toNat : ℕ) : ℚ) = (R : ℚ) := by exact_mod_cast Int.toNat_of_nonneg hR0
  have hfmt : fmt2 x = fmt2N R.toNat := rfl
  obtain ⟨hval, hchars, hne⟩ := fmt2N_parse R.toNat
  have hp := (parse_abbr_decomp (stripZeroDot (fmt2N R.toNat)) [s] ((R.toNat : ℚ) / 100)
    hne hchars hval (Or.inr ⟨s, rfl, hs⟩)).1
  refine ⟨(R.toNat : ℚ) / 100 * multOfGroup [s], by rw [hfmt]; exact hp, ?_⟩
  have hmg : multOfGroup [s] = T := by simpa [multOfGroup] using hm
  rw [hmg, htn]
  have habs : |100 * x - (R : ℚ)| ≤ 1 / 2 := by
    rw [hR]
    exact abs_sub_round (100 * x)
  have hexp : (R : ℚ) / 100 * T - (n : ℚ) = ((R : ℚ) - 100 * x) * (T / 100) := by
    rw [hx]
    field_simp
  rw [hexp, abs_mul, abs_of_pos (by positivity : (0 : ℚ) < T / 100), abs_sub_comm]
  have hmul : |100 * x - (R : ℚ)| * (T / 100) * 200 ≤ 1 / 2 * (T / 100) * 200 := by
    apply mul_le_mul_of_nonneg_right _ (by norm_num)
    exact mul_le_mul_of_nonneg_right habs (by positivity)
  refine le_trans hmul ?_
  rw [show (1 / 2 : ℚ) * (T / 100) * 200 = T from by ring]
  exact hTn

/-- C4.  For every nonnegative integer n, parsing the abbreviated
rendering of n recovers n within 1 percent relative error (the loss is
in fact at most 0.5 percent, from the two-decimal rounding). -/
theorem C4_roundtrip (n : ℕ) :
    ∃ q : ℚ, parse_abbr (format_abbr (n : ℤ)) = some q ∧
      |q - (n : ℚ)| ≤ (n : ℚ) / 100 := by
  by_cases h0 : n = 0
  · subst h0
    refine ⟨0 * multOfGroup [], ?_, by norm_num [multOfGroup]⟩
    have hfz : format_abbr ((0 : ℕ) : ℤ) = ⟨['0'] ++ []⟩ := rfl
    rw [hfz]
    exact (parse_abbr_decomp ['0'] [] 0 (by decide) (by decide)
      (by
        rw [pyFloat_digits (by decide) (by decide)]
        norm_num [show digitsToNat ['0'] = 0 from by decide])
      (Or.inl rfl)).1
  · have hzne : ((n : ℕ) : ℤ) ≠ 0 := by exact_mod_cast h0
    have hneg : ¬ (((n : ℕ) : ℤ) < 0) := not_lt.2 (Int.natCast_nonneg n)
    have habs : |(((n : ℕ) : ℤ) : ℚ)| = (n : ℚ) := by
      push_cast
      exact abs_of_nonneg (by positivity)
    have hbound : ∀ q : ℚ, |q - (n : ℚ)| * 200 ≤ (n : ℚ) → |q - (n : ℚ)| ≤ (n : ℚ) / 100 := by
      intro q hq
      have hn0 : (0 : ℚ) ≤ (n : ℚ) := by positivity
      linarith [abs_nonneg (q - (n : ℚ))]
    unfold format_abbr
    rw [if_neg hzne]
    simp only [if_neg hneg, habs, List.nil_append]
    by_cases hQ : (1000000000000000 : ℚ) ≤ (n : ℚ)
    · rw [if_pos hQ]
      obtain ⟨q, hpq, hb⟩ := parse_fmt_threshold n 1000000000000000 'Q' (by norm_num) hQ
        (by decide) (by simp +decide [multOf])
      exact ⟨q, hpq, hbound q hb⟩
    · rw [if_neg hQ]
      by_cases hT : (1000000000000 : ℚ) ≤ (n : ℚ)
      · rw [if_pos hT]
        obtain ⟨q, hpq, hb⟩ := parse_fmt_threshold n 1000000000000 'T' (by norm_num) hT
          (by decide) (by simp +decide [multOf])
        exact ⟨q, hpq, hbound q hb⟩
      · rw [if_neg hT]
        by_cases hB : (1000000000 : ℚ) ≤ (n : ℚ)
        · rw [if_pos hB]
          obtain ⟨q, hpq, hb⟩ := parse_fmt_threshold n 1000000000 'B' (by norm_num) hB
            (by decide) (by simp +decide [multOf])
          exact ⟨q, hpq, hbound q hb⟩
        · rw [if_neg hB]
          by_cases hM : (1000000 : ℚ) ≤ (n : ℚ)
          · rw [if_pos hM]
            obtain ⟨q, hpq, hb⟩ := parse_fmt_threshold n 1000000 'M' (by norm_num) hM
              (by decide) (by simp +decide [multOf])
            exact ⟨q, hpq, hbound q hb⟩
          · rw [if_neg hM]
            by_cases hK : (1000 : ℚ) ≤ (n : ℚ)
            · rw [if_pos hK]
              obtain ⟨q, hpq, hb⟩ := parse_fmt_threshold n 1000 'K' (by norm_num) hK
                (by decide) (by simp +decide [multOf])
              exact ⟨q, hpq, hbound q hb⟩
            · rw [if_neg hK]
              have h100 : (round ((100 : ℚ) * (n : ℚ))).toNat = 100 * n := by
                have hc : (100 : ℚ) * (n : ℚ) = ((100 * n : ℕ) : ℚ) := by
                  push_cast
                  ring
                rw [hc, round_natCast]
                omega
              have hfmt : fmt2 ((n : ℚ)) = fmt2N (100 * n) := by
                unfold fmt2
                rw [h100]
              obtain ⟨hval, hchars, hne⟩ := fmt2N_parse (100 * n)
              refine ⟨((100 * n : ℕ) : ℚ) / 100 * multOfGroup [], ?_, ?_⟩
              · rw [hfmt, show stripZeroDot (fmt2N (100 * n)) =
                  stripZeroDot (fmt2N (100 * n)) ++ [] from (List.append_nil _).symm]
                exact (parse_abbr_decomp _ [] _ hne hchars hval (Or.inl rfl)).1
              · have hv : ((100 * n : ℕ) : ℚ) / 100 * multOfGroup [] = (n : ℚ) := by
                  simp only [multOfGroup]
                  push_cast
                  field_simp
                rw [hv]
                simp
                positivity

theorem fmt2_chars (x : ℚ) : ∀ c ∈ stripZeroDot (fmt2 x),
    isPySpace c = false ∧ c ≠ ',' := by
  intro c hc
  have hg := (fmt2N_parse (round (100 * x)).toNat).2.1 c hc
  exact ⟨hg.2.2.1, hg.2.2.2⟩

/-- C10.  A leading sign on the numeric part makes `parse_abbr`
return 0 (the pattern admits only digits and dots before the suffix);
hence the round trip recovers no negative integer even though
`format_abbr` renders the minus sign. -/
theorem C10_sign_rejected :
    (∀ (s : String) (c : Char) (r : List Char),
      removeCommas (stripEnds s.data) = c :: r → (c = '+' ∨ c = '-') →
      parse_abbr s = some 0) ∧
    (∀ n : ℤ, n < 0 → parse_abbr (format_abbr n) = some 0) ∧
    (∀ n : ℤ, n < 0 → (format_abbr n).data.head? = some '-') := by
  have h1 : ∀ (s : String) (c : Char) (r : List Char),
      removeCommas (stripEnds s.data) = c :: r → (c = '+' ∨ c = '-') →
      parse_abbr s = some 0 := by
    intro s c r hcr hc
    unfold parse_abbr
    have hsne : ¬ (s.data = []) := by
      intro hnil
      rw [hnil] at hcr
      simp [stripEnds, removeCommas] at hcr
    rw [if_neg hsne]
    have hdd : isDigitDot c = false := by rcases hc with rfl | rfl <;> decide
    have hreg : regexAbbr (c :: r) = none := by
      unfold regexAbbr
      rw [List.takeWhile_cons_of_neg (by simp [hdd])]
      simp
    simp only [hcr, hreg]
  have hdata : ∀ n : ℤ, n < 0 → (format_abbr n).data =
      '-' :: (format_abbr n).data.tail ∧
      (∀ c ∈ (format_abbr n).data, isPySpace c = false ∧ c ≠ ',') := by
    intro n hneg
    have hne0 : n ≠ 0 := hneg.ne
    constructor
    · unfold format_abbr
      rw [if_neg hne0, if_pos hneg]
      dsimp only
      split_ifs <;> rfl
    · unfold format_abbr
      rw [if_neg hne0, if_pos hneg]
      dsimp only
      split_ifs <;> intro c hc <;>
        simp only [List.cons_append, List.mem_cons, List.mem_append,
          List.mem_singleton, List.mem_nil_iff, or_false, false_or, List.append_nil] at hc
      case _ =>
        rcases hc with rfl | hc | rfl
        · exact ⟨by decide, by decide⟩
        · exact fmt2_chars _ c hc
        · exact ⟨by decide, by decide⟩
      case _ =>
        rcases hc with rfl | hc | rfl
        · exact ⟨by decide, by decide⟩
        · exact fmt2_chars _ c hc
        · exact ⟨by decide, by decide⟩
      case _ =>
        rcases hc with rfl | hc | rfl
        · exact ⟨by decide, by decide⟩
        · exact fmt2_chars _ c hc
        · exact ⟨by decide, by decide⟩
      case _ =>
        rcases hc with rfl | hc | rfl
        · exact ⟨by decide, by decide⟩
        · exact fmt2_chars _ c hc
        · exact ⟨by decide, by decide⟩
      case _ =>
        rcases hc with rfl | hc | rfl
        · exact ⟨by decide, by decide⟩
        · exact fmt2_chars _ c hc
        · exact ⟨by decide, by decide⟩
      case _ =>
        rcases hc with rfl | hc
        · exact ⟨by decide, by decide⟩
        · exact fmt2_chars _ c hc
  have h3 : ∀ n : ℤ, n < 0 → (format_abbr n).data.head? = some '-' := by
    intro n hneg
    rw [(hdata n hneg).1]
    rfl
  refine ⟨h1, ?_, h3⟩
  intro n hneg
  obtain ⟨hhead, hchars⟩ := hdata n hneg
  have hstrip : stripEnds (format_abbr n).data = (format_abbr n).data :=
    stripEnds_id (fun c hc => (hchars c hc).1)
  have hcomma : removeCommas (format_abbr n).data = (format_abbr n).data :=
    removeCommas_id (fun c hc => (hchars c hc).2)
  exact h1 (format_abbr n) '-' (format_abbr n).data.tail
    (by rw [hstrip, hcomma]; exact hhead) (Or.inr rfl)

/-- C10 witness at the inputs "-3K" and -5000. -/
theorem C10_sign_rejected_witness :
    parse_abbr "-3K" = some 0 ∧ parse_abbr (format_abbr (-5000)) = some 0 ∧
    (format_abbr (-5000)).data.head? = some '-' := by
  obtain ⟨h1, h2, h3⟩ := C10_sign_rejected
  exact ⟨h1 "-3K" '-' ['3', 'K'] (by decide) (Or.inr rfl),
    h2 (-5000) (by decide), h3 (-5000) (by decide)⟩

/-- Evaluation helper: `parse_abbr` on a plain digit string gives its
numeric value. -/
theorem parse_abbr_digits (s : String) (d : List Char) (v : ℕ)
    (hs : s = ⟨d ++ []⟩) (hne : d ≠ []) (hg : ∀ c ∈ d, goodNumChar c)
    (hd : ∀ c ∈ d, c.isDigit = true) (hv : digitsToNat d = v) :
    parse_abbr s = some (v : ℚ) := by
  rw [hs]
  have h := (parse_abbr_decomp d [] (v : ℚ) hne hg
    (by rw [pyFloat_digits hne hd, hv]) (Or.inl rfl)).1
  simpa [multOfGroup] using h

/-- C2 evaluation at the claim's scenario (the repository's own test
fixture, simplified): member X (Bob) has identical parsed tracked
fields in all 3 valid snapshots, member Y (Alice) changes only between
snapshots 2 and 3.  The code reports Bob with days = 1 (the test and
the claim demand 2) and also reports Alice (the claim demands her
omission), because dropping the most recent of 3 snapshots leaves a
single adjacent pair to walk. -/
theorem C2_find_inactive_eval :
    find_inactive
      [⟨some "1", "Alice", some "100"⟩, ⟨some "2", "Bob", some "50"⟩]
      [⟨"2026-02-10", [("1", ⟨some "35", some "90", none, none, none, none, none, none, none⟩),
                       ("2", ⟨some "35", some "50", none, none, none, none, none, none, none⟩)]⟩,
       ⟨"2026-02-11", [("1", ⟨some "35", some "90", none, none, none, none, none, none, none⟩),
                       ("2", ⟨some "35", some "50", none, none, none, none, none, none, none⟩)]⟩,
       ⟨"2026-02-12", [("1", ⟨some "35", some "100", none, none, none, none, none, none, none⟩),
                       ("2", ⟨some "35", some "50", none, none, none, none, none, none, none⟩)]⟩]
      = some [⟨"Alice", 1⟩, ⟨"Bob", 1⟩] := by
  have h35 := parse_abbr_digits "35" ['3', '5'] 35 rfl (by decide) (by decide) (by decide)
    (by decide)
  have h90 := parse_abbr_digits "90" ['9', '0'] 90 rfl (by decide) (by decide) (by decide)
    (by decide)
  have h50 := parse_abbr_digits "50" ['5', '0'] 50 rfl (by decide) (by decide) (by decide)
    (by decide)
  have h0 := parse_abbr_digits "0" ['0'] 0 rfl (by decide) (by decide) (by decide) (by decide)
  norm_num +decide [find_inactive, collectInactive, daysWalk, changedGo, numericFieldsOf,
    alookup, idFalsy, List.insertionSort, List.orderedInsert, inactiveGe,
    h35, h90, h50, h0]

/-- C7 counterexample.  With a nonempty history whose only snapshot is
more recent than the 7-day target, `find_power_movers` falls back to
that snapshot as anchor and returns a nonempty gainer list instead of
the two empty lists the claim requires. -/
theorem C7_counterexample :
    find_power_movers [⟨some "1", "A", some "5000"⟩]
      [⟨"2026-02-15", [("1", ⟨none, some "1000", none, none, none, none, none, none, none⟩)]⟩]
      "2026-02-08"
      = some ([⟨"A", 4000⟩], []) ∧
    find_power_movers [⟨some "1", "A", some "5000"⟩]
      [⟨"2026-02-15", [("1", ⟨none, some "1000", none, none, none, none, none, none, none⟩)]⟩]
      "2026-02-08"
      ≠ some (([] : List Mover), ([] : List Mover)) := by
  have h5000 := parse_abbr_digits "5000" ['5', '0', '0', '0'] 5000 rfl (by decide) (by decide)
    (by decide) (by decide)
  have h1000 := parse_abbr_digits "1000" ['1', '0', '0', '0'] 1000 rfl (by decide) (by decide)
    (by decide) (by decide)
  have heval : find_power_movers [⟨some "1", "A", some "5000"⟩]
      [⟨"2026-02-15", [("1", ⟨none, some "1000", none, none, none, none, none, none, none⟩)]⟩]
      "2026-02-08"
      = some ([⟨"A", 4000⟩], []) := by
    norm_num +decide [find_power_movers, get_snapshot_days_ago, moverDeltas, alookup,
      idFalsy, List.insertionSort, List.orderedInsert, moverGe, moverLe, keyLe, lexLe,
      h5000, h1000]
  refine ⟨heval, ?_⟩
  rw [heval]
  simp

end Stfc
